import Mathlib

/-!
Verification of the token-budget allocator service.

Shallow embedding of the repository's core:
- `db/models.py` (Node, Allocation rows) as Lean structures;
- `services/allocator.py` (`Allocator.alloc`, `Allocator.free`, the Gini
  imbalance metric of `get_usage_stats`) as state-passing functions over a
  `DBState`; SQL transactions are modelled by returning the pre-call state on
  every raised exception (the `with session.begin()` blocks roll back);
- `middleware/ratelimit.py` (`TokenBucketLimiter.allow`) over rational
  numbers, with Python's `round` (half-to-even) modelled exactly;
- `routes/tokens.py` (`alloc_route` and the `_allocator` factory) including
  the keyword-argument check Python performs when `Allocator(...)` is called.
-/

namespace TokenRouting

/-- A row of the `nodes` table (`db/models.py`). -/
structure Node where
  id : Int
  capacity_m : Int
  used_quota : Int
deriving DecidableEq, Repr

/-- Derived quantity `capacity_m - used_quota` used throughout `allocator.py`. -/
def Node.remaining (n : Node) : Int := n.capacity_m - n.used_quota

/-- The `allocation_status` enum of `db/models.py`. -/
inductive AllocStatus where
  | allocated
  | freed
deriving DecidableEq, Repr

/-- A row of the `allocations` table (`db/models.py`); `request_id` is the primary key. -/
structure Allocation where
  request_id : String
  node_id : Int
  token_count : Int
  status : AllocStatus
deriving DecidableEq, Repr

/-- The database state the allocator operates on. -/
structure DBState where
  nodes : List Node
  allocations : List Allocation
deriving DecidableEq, Repr

/-- Errors `Allocator.alloc` can surface: `OverloadedError`, or any other
exception (e.g. `AttributeError` on a missing foreign row) mapped to an
internal failure by the route. -/
inductive AllocErr where
  | overloaded
  | internal
deriving DecidableEq, Repr

/-- Errors `Allocator.free` can surface: `NotFoundError` or any other exception. -/
inductive FreeErr where
  | notFound
  | internal
deriving DecidableEq, Repr

/-- The dict returned by `Allocator.alloc`. -/
structure AllocResult where
  node_id : Int
  remaining_quota : Int
deriving DecidableEq, Repr

/-- The dict returned by `Allocator.free`. -/
structure FreeResult where
  node_id : Int
deriving DecidableEq, Repr

/-- The ORDER BY used in candidate selection (`allocator.py` line 76 and 80):
ascending remaining when the strategy string equals "best", otherwise
descending remaining; `Node.id` ascending breaks ties. -/
def nodeOrder (strategy : String) (a b : Node) : Prop :=
  if strategy = "best" then
    a.remaining < b.remaining ∨ (a.remaining = b.remaining ∧ a.id ≤ b.id)
  else
    b.remaining < a.remaining ∨ (b.remaining = a.remaining ∧ a.id ≤ b.id)

instance (strategy : String) : DecidableRel (nodeOrder strategy) := fun a b => by
  unfold nodeOrder
  infer_instance

instance (strategy : String) : IsTotal Node (nodeOrder strategy) := by
  constructor
  intro a b
  unfold nodeOrder
  split <;> omega

instance (strategy : String) : IsTrans Node (nodeOrder strategy) := by
  constructor
  intro a b c hab hbc
  unfold nodeOrder at *
  split at hab <;> [skip; skip] <;> simp_all <;> omega

/-- The WHERE clause `(capacity_m - used_quota) >= token_count` of the
candidate query. -/
def fits (k : Int) (n : Node) : Bool := decide (k ≤ n.remaining)

/-- The candidate query of `Allocator.alloc` (lines 74-85): rows whose
remaining covers the request, ordered by the strategy's sort key with id as
tie-break, first row taken.  A stable sort models SQL ORDER BY. -/
def selectCandidate (nodes : List Node) (strategy : String) (k : Int) : Option Node :=
  (List.insertionSort (nodeOrder strategy) (nodes.filter (fits k))).head?

/-- Rows changed by the conditional UPDATE of `Allocator.alloc` (lines 91-96). -/
def condIncrementCount (nodes : List Node) (nid k : Int) : Nat :=
  (nodes.filter (fun n => decide (n.id = nid ∧ k ≤ n.remaining))).length

/-- Effect of the conditional UPDATE of `Allocator.alloc` (lines 91-96):
increment `used_quota` on rows matching the WHERE clause. -/
def condIncrementNodes (nodes : List Node) (nid k : Int) : List Node :=
  nodes.map (fun n =>
    if n.id = nid ∧ k ≤ n.remaining then { n with used_quota := n.used_quota + k } else n)

/-- Primary-key lookup `session.get(Allocation, request_id)`. -/
def findAllocation (s : DBState) (r : String) : Option Allocation :=
  s.allocations.find? (fun a => a.request_id == r)

/-- Primary-key lookup `session.get(Node, id)`. -/
def findNode (nodes : List Node) (i : Int) : Option Node :=
  nodes.find? (fun n => n.id == i)

/-- Whether inserting an allocation row for `r` violates the primary-key
uniqueness of `request_id` (raises `IntegrityError` at `session.flush()`). -/
def insertConflict (s : DBState) (r : String) : Bool :=
  s.allocations.any (fun a => a.request_id == r)

/-- Shared tail of the idempotent paths of `Allocator.alloc`: read the node of
an existing allocation row and answer with its current remaining.  A missing
node row would make `node.capacity_m` raise `AttributeError`, which the
transaction turns into a rollback and the route into an internal error. -/
def idempotentReturn (s : DBState) (a : Allocation) : (Except AllocErr AllocResult) × DBState :=
  match findNode s.nodes a.node_id with
  | some node => (.ok ⟨node.id, node.capacity_m - node.used_quota⟩, s)
  | none => (.error .internal, s)

/-- Placement path of `Allocator.alloc` (lines 74-121): candidate selection,
conditional increment, allocation insert with conflict recovery, final
re-read.  Raises roll the transaction back, so error outcomes carry the
pre-call state. -/
def allocPlace (strategy : String) (s : DBState) (r : String) (k : Int) :
    (Except AllocErr AllocResult) × DBState :=
  match selectCandidate s.nodes strategy k with
  | none => (.error .overloaded, s)
  | some node =>
    if condIncrementCount s.nodes node.id k = 0 then (.error .overloaded, s)
    else
      let nodes2 := condIncrementNodes s.nodes node.id k
      if insertConflict s r then
        match findAllocation s r with
        | some existing => idempotentReturn s existing
        | none => (.error .internal, s)
      else
        match findNode nodes2 node.id with
        | some node2 =>
          (.ok ⟨node2.id, node2.capacity_m - node2.used_quota⟩,
            ⟨nodes2, s.allocations ++ [⟨r, node.id, k, .allocated⟩]⟩)
        | none => (.error .internal, s)

/-- `Allocator.alloc` (lines 55-121): idempotency probe, then placement. -/
def alloc (strategy : String) (s : DBState) (r : String) (k : Int) :
    (Except AllocErr AllocResult) × DBState :=
  match findAllocation s r with
  | some existing =>
    if existing.status = .allocated then idempotentReturn s existing
    else allocPlace strategy s r k
  | none => allocPlace strategy s r k

/-- `Allocator.free` (lines 123-146): look the row up, require status
`allocated`, decrement the node unconditionally, flip the status. -/
def free (s : DBState) (r : String) : (Except FreeErr FreeResult) × DBState :=
  match findAllocation s r with
  | none => (.error .notFound, s)
  | some a =>
    if a.status = .allocated then
      match findNode s.nodes a.node_id with
      | none => (.error .internal, s)
      | some node =>
        (.ok ⟨node.id⟩,
          ⟨s.nodes.map (fun n =>
              if n.id = node.id then { n with used_quota := n.used_quota - a.token_count } else n),
            s.allocations.map (fun x =>
              if x.request_id = r then { x with status := AllocStatus.freed } else x)⟩)
    else (.error .notFound, s)

/-- Truncation toward zero, Python's `int(...)` on a non-integral number. -/
def pyInt (q : ℚ) : ℤ := if q < 0 then -⌊-q⌋ else ⌊q⌋

/-- Python's built-in `round` to an integer: round half to even. -/
def pyRound (q : ℚ) : ℤ :=
  if q - ⌊q⌋ < 1 / 2 then ⌊q⌋
  else if 1 / 2 < q - ⌊q⌋ then ⌊q⌋ + 1
  else if ⌊q⌋ % 2 = 0 then ⌊q⌋ else ⌊q⌋ + 1

/-- A `_Bucket` of `middleware/ratelimit.py`. -/
structure Bucket where
  tokens : ℚ
  last : ℚ
  capacity : ℚ
  rate : ℚ
deriving DecidableEq, Repr

/-- The tuple returned by `TokenBucketLimiter.allow`. -/
structure AdmitResult where
  allowed : Bool
  limit : ℤ
  remaining : ℤ
  retry_after : ℤ
deriving DecidableEq, Repr

/-- `TokenBucketLimiter._refill`. -/
def refill (b : Bucket) (now : ℚ) : Bucket :=
  { b with tokens := min b.capacity (b.tokens + max 0 (now - b.last) * b.rate), last := now }

/-- `TokenBucketLimiter.allow`: refill both buckets, admit when both hold at
least one token, otherwise compute the retry-after hint.  When a bucket's rate
is not positive, Python sets its wait to `float('inf')` and `round` then
raises `OverflowError`; that path is the error outcome. -/
def allow (gb cb : Bucket) (now : ℚ) : Except Unit (AdmitResult × Bucket × Bucket) :=
  let gb2 := refill gb now
  let cb2 := refill cb now
  if 1 ≤ gb2.tokens ∧ 1 ≤ cb2.tokens then
    let gb3 := { gb2 with tokens := gb2.tokens - 1 }
    let cb3 := { cb2 with tokens := cb2.tokens - 1 }
    .ok (⟨true, pyInt cb3.capacity, max 0 (pyInt cb3.tokens), 0⟩, gb3, cb3)
  else if 0 < gb2.rate ∧ 0 < cb2.rate then
    let wg := max 0 (1 - gb2.tokens) / gb2.rate
    let wc := max 0 (1 - cb2.tokens) / cb2.rate
    .ok (⟨false, pyInt cb2.capacity, max 0 (pyInt cb2.tokens), max 0 (pyRound (max wg wc))⟩, gb2, cb2)
  else
    .error ()

/-- The `Retry-After` value the guard in `app.py` reports on a denial:
`str(max(1, retry_after))`. -/
def guardRetryAfter (retry : ℤ) : ℤ := max 1 retry

/-- The larger of `(1 - tokens) / rate` over the buckets short a token
(a bucket with a token to spare contributes nothing). -/
def shortWaitMax (gb cb : Bucket) : ℚ :=
  max (if gb.tokens < 1 then (1 - gb.tokens) / gb.rate else 0)
      (if cb.tokens < 1 then (1 - cb.tokens) / cb.rate else 0)

/-- The retry-after value the specification describes: ceiling of the larger
of `(1 - tokens) / rate` across the buckets short a token. -/
def ceilRetrySpec (gb cb : Bucket) : ℤ :=
  max (if gb.tokens < 1 then ⌈(1 - gb.tokens) / gb.rate⌉ else 0)
      (if cb.tokens < 1 then ⌈(1 - cb.tokens) / cb.rate⌉ else 0)

/-- The loop of `_gini` in `Allocator.get_usage_stats`: running sum of
`i * v` with `i` counting from the given start. -/
def giniCum : List ℚ → Nat → ℚ
  | [], _ => 0
  | v :: t, i => i * v + giniCum t (i + 1)

/-- The `_gini` helper of `Allocator.get_usage_stats` (lines 175-186):
filter negatives, sort ascending, return 0 on an empty list or zero sum,
otherwise `(2 * cum) / (n * s) - (n + 1) / n`. -/
def gini (values : List ℚ) : ℚ :=
  let vals := List.insertionSort (fun a b => a ≤ b) (values.filter (fun v => 0 ≤ v))
  if vals = [] then 0
  else
    let n : ℚ := vals.length
    let s := vals.sum
    if s = 0 then 0
    else (2 * giniCum vals 1) / (n * s) - (n + 1) / n

/-- The `imbalance_gini` field of `Allocator.get_usage_stats`: the Gini metric
of the nodes' `used_quota` values. -/
def imbalanceGini (s : DBState) : ℚ :=
  gini (s.nodes.map (fun n => (n.used_quota : ℚ)))

/-- The specification's Gini formula, written with an indexed sum over the
sorted non-negative values: 0 when `n = 0` or `S = 0`, otherwise
`(2 * Σ i * x_i) / (n * S) - (n + 1) / n` with 1-based `i`. -/
def giniSpec (values : List ℚ) : ℚ :=
  let xs := List.insertionSort (fun a b => a ≤ b) (values.filter (fun v => 0 ≤ v))
  let n := xs.length
  let S := xs.sum
  if n = 0 ∨ S = 0 then 0
  else (2 * ∑ i ∈ Finset.range n, ((i : ℚ) + 1) * xs.getD i 0) / (n * S) - ((n : ℚ) + 1) / n

/-- Keyword parameters `Allocator.__init__` accepts besides the positional
`session_factory` (`services/allocator.py` line 37). -/
def allocatorInitKeywords : List String := ["strategy", "dialect_name"]

/-- Keyword arguments the `_allocator` factory in `routes/tokens.py` (line 30)
passes to the `Allocator` constructor. -/
def allocRouteCallKeywords : List String := ["strategy", "dialect_name", "big_request_threshold"]

/-- Python raises `TypeError` on a call passing a keyword argument the callee
does not declare. -/
def allocatorCallRaisesTypeError : Bool :=
  allocRouteCallKeywords.any (fun kw => !(allocatorInitKeywords.contains kw))

/-- Responses of the `/alloc` route, by status code and error kind. -/
inductive AllocRouteResponse where
  | success (node_id remaining_quota : Int)
  | badRequest
  | overloadedResp (retryAfter : Int)
  | internal
deriving DecidableEq, Repr

/-- `alloc_route` of `routes/tokens.py` (lines 33-60), after rate-limit
admission: validate the body (`request_id` non-empty, `token_count > 0`), then
build the allocator via `_allocator()` inside the `try` block — a `TypeError`
there is caught by `except Exception` and answered as 500 internal — and run
`alloc`, mapping `OverloadedError` to 429 with the configured hint. -/
def alloc_route (strategy : String) (overloadRetryAfterSec : Int) (s : DBState)
    (request_id : String) (token_count : Int) : AllocRouteResponse × DBState :=
  if request_id.length < 1 ∨ token_count ≤ 0 then (.badRequest, s)
  else if allocatorCallRaisesTypeError then (.internal, s)
  else
    match alloc strategy s request_id token_count with
    | (.ok res, s2) => (.success res.node_id res.remaining_quota, s2)
    | (.error .overloaded, s2) => (.overloadedResp overloadRetryAfterSec, s2)
    | (.error .internal, s2) => (.internal, s2)

/-- Modelled from the spec: the candidate selection of section 4.3 step 2,
including the big-request override absent from `services/allocator.py` —
`order = remaining_desc` when the strategy is `largest` or
`token_count ≥ big_request_threshold`, else `remaining_asc`. -/
def selectCandidateSpec (nodes : List Node) (strategy : String) (threshold k : Int) : Option Node :=
  selectCandidate nodes (if strategy = "largest" ∨ threshold ≤ k then "largest" else "best") k

instance {ε α : Type} [DecidableEq ε] [DecidableEq α] : DecidableEq (Except ε α) := fun a b =>
  match a, b with
  | .ok x, .ok y => if h : x = y then .isTrue (by rw [h]) else .isFalse (by simp [h])
  | .error x, .error y => if h : x = y then .isTrue (by rw [h]) else .isFalse (by simp [h])
  | .ok _, .error _ => .isFalse (by simp)
  | .error _, .ok _ => .isFalse (by simp)

theorem nodeOrder_refl (strategy : String) (a : Node) : nodeOrder strategy a a := by
  unfold nodeOrder
  split <;> omega

theorem findAllocation_prop {s : DBState} {r : String} {a : Allocation}
    (h : findAllocation s r = some a) : a ∈ s.allocations ∧ a.request_id = r := by
  unfold findAllocation at h
  exact ⟨List.mem_of_find?_eq_some h, by simpa using List.find?_some h⟩

theorem findAllocation_none {s : DBState} {r : String} :
    findAllocation s r = none ↔ ∀ a ∈ s.allocations, a.request_id ≠ r := by
  unfold findAllocation
  rw [List.find?_eq_none]
  simp

theorem findNode_prop {nodes : List Node} {i : Int} {n : Node}
    (h : findNode nodes i = some n) : n ∈ nodes ∧ n.id = i := by
  unfold findNode at h
  exact ⟨List.mem_of_find?_eq_some h, by simpa using List.find?_some h⟩

theorem insertConflict_false_iff {s : DBState} {r : String} :
    insertConflict s r = false ↔ ∀ a ∈ s.allocations, a.request_id ≠ r := by
  unfold insertConflict
  rw [List.any_eq_false]
  simp

theorem insertConflict_of_found {s : DBState} {r : String} {a : Allocation}
    (h : findAllocation s r = some a) : insertConflict s r = true := by
  obtain ⟨hmem, hid⟩ := findAllocation_prop h
  unfold insertConflict
  rw [List.any_eq_true]
  exact ⟨a, hmem, by simp [hid]⟩

theorem find?_concat_self {l : List Allocation} {row : Allocation} {r : String}
    (hno : ∀ a ∈ l, a.request_id ≠ r) (hrow : row.request_id = r) :
    (l ++ [row]).find? (fun a => a.request_id == r) = some row := by
  rw [List.find?_append]
  have h1 : l.find? (fun a => a.request_id == r) = none :=
    List.find?_eq_none.mpr (by intro a ha; simpa using hno a ha)
  rw [h1]
  simp [List.find?, hrow]

theorem selectCandidate_none_iff {nodes : List Node} {strategy : String} {k : Int} :
    selectCandidate nodes strategy k = none ↔ ∀ n ∈ nodes, ¬ k ≤ n.remaining := by
  unfold selectCandidate
  rw [List.head?_eq_none_iff]
  constructor
  · intro h n hn hk
    have hmem : n ∈ List.insertionSort (nodeOrder strategy) (nodes.filter (fits k)) := by
      rw [(List.perm_insertionSort _ _).mem_iff]
      exact List.mem_filter.mpr ⟨hn, by simpa [fits] using hk⟩
    rw [h] at hmem
    exact absurd hmem (List.not_mem_nil n)
  · intro h
    have hfil : nodes.filter (fits k) = [] :=
      List.filter_eq_nil_iff.mpr (fun a ha => by simpa [fits] using h a ha)
    rw [hfil]
    rfl

theorem selectCandidate_some {nodes : List Node} {strategy : String} {k : Int} {n : Node}
    (h : selectCandidate nodes strategy k = some n) :
    n ∈ nodes ∧ k ≤ n.remaining ∧ ∀ m ∈ nodes, k ≤ m.remaining → nodeOrder strategy n m := by
  unfold selectCandidate at h
  have hsorted : List.Sorted (nodeOrder strategy)
      (List.insertionSort (nodeOrder strategy) (nodes.filter (fits k))) :=
    List.sorted_insertionSort _ _
  have hperm := List.perm_insertionSort (nodeOrder strategy) (nodes.filter (fits k))
  obtain ⟨t, ht⟩ : ∃ t, List.insertionSort (nodeOrder strategy) (nodes.filter (fits k)) = n :: t := by
    cases hc : List.insertionSort (nodeOrder strategy) (nodes.filter (fits k)) with
    | nil => rw [hc] at h; exact absurd h (by simp)
    | cons a t =>
      rw [hc] at h
      simp only [List.head?_cons, Option.some.injEq] at h
      refine ⟨t, ?_⟩
      rw [h]
  have hn_mem : n ∈ nodes.filter (fits k) := by
    rw [← hperm.mem_iff, ht]
    exact List.mem_cons_self n t
  obtain ⟨hn1, hn2⟩ := List.mem_filter.mp hn_mem
  refine ⟨hn1, by simpa [fits] using hn2, ?_⟩
  intro m hm hk
  have hm_mem : m ∈ n :: t := by
    rw [← ht, hperm.mem_iff]
    exact List.mem_filter.mpr ⟨hm, by simpa [fits] using hk⟩
  rw [ht] at hsorted
  rcases List.mem_cons.mp hm_mem with h1 | h1
  · rw [h1]
    exact nodeOrder_refl strategy n
  · exact List.rel_of_sorted_cons hsorted m h1

theorem condIncrementCount_pos {nodes : List Node} {n : Node} {k : Int}
    (hmem : n ∈ nodes) (hfit : k ≤ n.remaining) : condIncrementCount nodes n.id k ≠ 0 := by
  unfold condIncrementCount
  intro h
  rw [List.length_eq_zero, List.filter_eq_nil_iff] at h
  have h2 := h n hmem
  simp [hfit] at h2

theorem allocPlace_state_cases (strategy : String) (s : DBState) (r : String) (k : Int) :
    (allocPlace strategy s r k).2 = s ∨
    ∃ node node2, selectCandidate s.nodes strategy k = some node ∧
      condIncrementCount s.nodes node.id k ≠ 0 ∧ insertConflict s r = false ∧
      findNode (condIncrementNodes s.nodes node.id k) node.id = some node2 ∧
      allocPlace strategy s r k =
        (.ok ⟨node2.id, node2.capacity_m - node2.used_quota⟩,
          ⟨condIncrementNodes s.nodes node.id k, s.allocations ++ [⟨r, node.id, k, .allocated⟩]⟩) := by
  cases hsel : selectCandidate s.nodes strategy k with
  | none =>
    left
    simp [allocPlace, hsel]
  | some node =>
    by_cases hcnt : condIncrementCount s.nodes node.id k = 0
    · left
      simp [allocPlace, hsel, hcnt]
    · by_cases hconf : insertConflict s r = true
      · left
        simp only [allocPlace, hsel, if_neg hcnt, hconf, if_true]
        cases hfa : findAllocation s r with
        | none => simp [hfa]
        | some existing =>
          simp only [hfa, idempotentReturn]
          cases hfn2 : findNode s.nodes existing.node_id <;> simp [hfn2]
      · rw [Bool.not_eq_true] at hconf
        cases hfn : findNode (condIncrementNodes s.nodes node.id k) node.id with
        | none =>
          left
          simp [allocPlace, hsel, hcnt, hconf, hfn]
        | some node2 =>
          right
          refine ⟨node, node2, rfl, hcnt, hconf, hfn, ?_⟩
          simp [allocPlace, hsel, hcnt, hconf, hfn]

theorem allocPlace_fresh_ok {strategy : String} {s : DBState} {r : String} {k : Int}
    {res : AllocResult} (hconf : insertConflict s r = false)
    (hok : (allocPlace strategy s r k).1 = .ok res) :
    ∃ node node2, selectCandidate s.nodes strategy k = some node ∧
      findNode (condIncrementNodes s.nodes node.id k) node.id = some node2 ∧
      res = ⟨node2.id, node2.capacity_m - node2.used_quota⟩ ∧
      (allocPlace strategy s r k).2 =
        ⟨condIncrementNodes s.nodes node.id k, s.allocations ++ [⟨r, node.id, k, .allocated⟩]⟩ := by
  cases hsel : selectCandidate s.nodes strategy k with
  | none =>
    simp [allocPlace, hsel] at hok
  | some node =>
    by_cases hcnt : condIncrementCount s.nodes node.id k = 0
    · simp [allocPlace, hsel, hcnt] at hok
    · cases hfn : findNode (condIncrementNodes s.nodes node.id k) node.id with
      | none => simp [allocPlace, hsel, hcnt, hconf, hfn] at hok
      | some node2 =>
        simp only [allocPlace, hsel, hcnt, hconf] at hok ⊢
        simp only [hfn] at hok ⊢
        refine ⟨node, node2, rfl, hfn, ?_, ?_⟩
        · simpa using hok.symm
        · simp

theorem pyRound_nonneg {q : ℚ} (h : 0 ≤ q) : 0 ≤ pyRound q := by
  unfold pyRound
  have hf : (0 : ℤ) ≤ ⌊q⌋ := Int.floor_nonneg.mpr h
  split
  · exact hf
  · split
    · omega
    · split <;> omega

theorem giniCum_succ (l : List ℚ) : ∀ i : Nat, giniCum l (i + 1) = giniCum l i + l.sum := by
  induction l with
  | nil => intro i; simp [giniCum]
  | cons v t ih =>
    intro i
    simp only [giniCum, List.sum_cons, ih (i + 1)]
    push_cast
    ring

theorem sum_getD_eq_sum (l : List ℚ) :
    ∑ i ∈ Finset.range l.length, l.getD i 0 = l.sum := by
  induction l with
  | nil => simp
  | cons v t ih =>
    rw [List.length_cons, Finset.sum_range_succ']
    simp only [List.getD_cons_succ, List.getD_cons_zero, List.sum_cons, ih]
    ring

theorem giniCum_eq_sum (l : List ℚ) :
    giniCum l 1 = ∑ i ∈ Finset.range l.length, ((i : ℚ) + 1) * l.getD i 0 := by
  induction l with
  | nil => simp [giniCum]
  | cons v t ih =>
    rw [List.length_cons, Finset.sum_range_succ']
    simp only [List.getD_cons_succ, List.getD_cons_zero]
    have hsplit : ∑ i ∈ Finset.range t.length, ((((i : Nat) + 1 : Nat) : ℚ) + 1) * t.getD i 0
        = (∑ i ∈ Finset.range t.length, ((i : ℚ) + 1) * t.getD i 0)
          + ∑ i ∈ Finset.range t.length, t.getD i 0 := by
      rw [← Finset.sum_add_distrib]
      refine Finset.sum_congr rfl ?_
      intro i _
      push_cast
      ring
    rw [hsplit, ← ih, sum_getD_eq_sum]
    show giniCum (v :: t) 1 = giniCum t 1 + t.sum + ((0 : ℚ) + 1) * v
    simp only [giniCum, ← giniCum_succ]
    push_cast
    ring

theorem length_mul_le_sum (t : List ℚ) (x : ℚ) (h : ∀ y ∈ t, x ≤ y) :
    (t.length : ℚ) * x ≤ t.sum := by
  induction t with
  | nil => simp
  | cons v t ih =>
    have hv := h v (List.mem_cons_self v t)
    have ih2 := ih (fun y hy => h y (List.mem_cons_of_mem v hy))
    simp only [List.length_cons, List.sum_cons]
    push_cast
    nlinarith

theorem giniCum_lower (l : List ℚ) (h : l.Pairwise (· ≤ ·)) :
    ((l.length : ℚ) + 1) * l.sum ≤ 2 * giniCum l 1 := by
  induction l with
  | nil => simp [giniCum]
  | cons x t ih =>
    rw [List.pairwise_cons] at h
    obtain ⟨hx, ht⟩ := h
    have ih2 := ih ht
    have hT := length_mul_le_sum t x hx
    have hrec : giniCum (x :: t) 1 = x + t.sum + giniCum t 1 := by
      show (1 : Nat) * x + giniCum t (1 + 1) = x + t.sum + giniCum t 1
      rw [giniCum_succ]
      push_cast
      ring
    rw [hrec]
    simp only [List.length_cons, List.sum_cons]
    push_cast
    nlinarith

theorem giniCum_upper (l : List ℚ) (h : ∀ v ∈ l, 0 ≤ v) :
    giniCum l 1 ≤ (l.length : ℚ) * l.sum := by
  induction l with
  | nil => simp [giniCum]
  | cons x t ih =>
    have hx := h x (List.mem_cons_self x t)
    have ih2 := ih (fun v hv => h v (List.mem_cons_of_mem x hv))
    have hT : 0 ≤ t.sum := List.sum_nonneg (fun v hv => h v (List.mem_cons_of_mem x hv))
    have hrec : giniCum (x :: t) 1 = x + t.sum + giniCum t 1 := by
      show (1 : Nat) * x + giniCum t (1 + 1) = x + t.sum + giniCum t 1
      rw [giniCum_succ]
      push_cast
      ring
    rw [hrec]
    simp only [List.length_cons, List.sum_cons]
    push_cast
    nlinarith

theorem gini_aux (xs : List ℚ) (hs : xs.Pairwise (fun a b : ℚ => a ≤ b))
    (hnn : ∀ v ∈ xs, 0 ≤ v) (G : ℚ)
    (hG : G = (if xs = [] then 0 else if xs.sum = 0 then 0
      else (2 * giniCum xs 1) / ((xs.length : ℚ) * xs.sum) - ((xs.length : ℚ) + 1) / (xs.length : ℚ))) :
    G = (if xs.length = 0 ∨ xs.sum = 0 then 0
      else (2 * ∑ i ∈ Finset.range xs.length, ((i : ℚ) + 1) * xs.getD i 0) /
          ((xs.length : ℚ) * xs.sum) - ((xs.length : ℚ) + 1) / (xs.length : ℚ)) ∧
    0 ≤ G ∧ G < 1 := by
  by_cases h1 : xs = []
  · refine ⟨?_, ?_, ?_⟩ <;> simp [hG, h1]
  by_cases h2 : xs.sum = 0
  · refine ⟨?_, ?_, ?_⟩ <;> simp [hG, h1, h2]
  have hlen : xs.length ≠ 0 := fun h => h1 (List.length_eq_zero.mp h)
  have npos : (0 : ℚ) < (xs.length : ℚ) := by
    exact_mod_cast Nat.pos_of_ne_zero hlen
  have hSnn : 0 ≤ xs.sum := List.sum_nonneg hnn
  have hSpos : 0 < xs.sum := lt_of_le_of_ne hSnn (Ne.symm h2)
  have hnS : 0 < (xs.length : ℚ) * xs.sum := mul_pos npos hSpos
  have hlow := giniCum_lower xs hs
  have hup := giniCum_upper xs hnn
  have hGval : G = (2 * giniCum xs 1) / ((xs.length : ℚ) * xs.sum)
      - ((xs.length : ℚ) + 1) / (xs.length : ℚ) := by
    rw [hG, if_neg h1, if_neg h2]
  refine ⟨?_, ?_, ?_⟩
  · rw [hGval, if_neg (by push_neg; exact ⟨hlen, h2⟩), giniCum_eq_sum]
  · rw [hGval, sub_nonneg]
    have e1 : ((xs.length : ℚ) + 1) / (xs.length : ℚ)
        = (((xs.length : ℚ) + 1) * xs.sum) / ((xs.length : ℚ) * xs.sum) :=
      (mul_div_mul_right _ _ (ne_of_gt hSpos)).symm
    rw [e1]
    exact (div_le_div_iff_of_pos_right hnS).mpr hlow
  · have h2C : (2 * giniCum xs 1) / ((xs.length : ℚ) * xs.sum) ≤ 2 := by
      rw [div_le_iff₀ hnS]
      nlinarith
    have hfrac : 1 < ((xs.length : ℚ) + 1) / (xs.length : ℚ) := by
      rw [lt_div_iff₀ npos]
      linarith
    rw [hGval]
    linarith

/-- C8: the `imbalance_gini` of `get_usage_stats` equals the specification's
formula — with the non-negative `used_quota` values sorted ascending as
`x_1 … x_n` and `S` their sum, it is 0 when `n = 0` or `S = 0` and otherwise
`(2 * Σ i * x_i) / (n * S) - (n + 1) / n` with 1-based `i` — and the result
always lies in the interval [0, 1). -/
theorem gini_matches_spec_and_in_range (s : DBState) :
    imbalanceGini s = giniSpec (s.nodes.map (fun n => (n.used_quota : ℚ))) ∧
    0 ≤ imbalanceGini s ∧ imbalanceGini s < 1 := by
  have hs : ((s.nodes.map (fun n => (n.used_quota : ℚ))).filter
      (fun v => 0 ≤ v)).insertionSort (fun a b : ℚ => a ≤ b) |>.Pairwise (fun a b : ℚ => a ≤ b) :=
    List.sorted_insertionSort _ _
  have hnn : ∀ v ∈ ((s.nodes.map (fun n => (n.used_quota : ℚ))).filter
      (fun v => 0 ≤ v)).insertionSort (fun a b : ℚ => a ≤ b), 0 ≤ v := by
    intro v hv
    have hv2 := (List.perm_insertionSort _ _).mem_iff.mp hv
    have := (List.mem_filter.mp hv2).2
    simpa using this
  have h := gini_aux _ hs hnn (imbalanceGini s) rfl
  exact ⟨h.1, h.2.1, h.2.2⟩

theorem shortWaitMax_eq (G C : Bucket) :
    max (max 0 (1 - G.tokens) / G.rate) (max 0 (1 - C.tokens) / C.rate) = shortWaitMax G C := by
  unfold shortWaitMax
  congr 1
  · by_cases h : G.tokens < 1
    · rw [if_pos h, max_eq_right (by linarith)]
    · rw [if_neg h, max_eq_left (by push_neg at h; linarith), zero_div]
  · by_cases h : C.tokens < 1
    · rw [if_pos h, max_eq_right (by linarith)]
    · rw [if_neg h, max_eq_left (by push_neg at h; linarith), zero_div]

/-- C3 (amended): on every denied admission with positive bucket rates, the
reported `Retry-After` equals `max 1` of the Python `round` (half-to-even) of
the larger of `(1 - tokens) / rate` over the refilled buckets short a token
(a bucket not short contributes nothing), and it is never below 1 second.
The code rounds instead of taking the ceiling. -/
theorem allow_denied_retry_after (gb cb : Bucket) (now : ℚ) (res : AdmitResult)
    (gb2 cb2 : Bucket) (hg : 0 < gb.rate) (hc : 0 < cb.rate)
    (hres : allow gb cb now = .ok (res, gb2, cb2)) (hdeny : res.allowed = false) :
    guardRetryAfter res.retry_after = max 1 (pyRound (shortWaitMax gb2 cb2)) ∧
    1 ≤ guardRetryAfter res.retry_after := by
  simp only [allow] at hres
  by_cases hadm : 1 ≤ (refill gb now).tokens ∧ 1 ≤ (refill cb now).tokens
  · rw [if_pos hadm] at hres
    simp only [Except.ok.injEq, Prod.mk.injEq] at hres
    rw [← hres.1] at hdeny
    simp at hdeny
  · rw [if_neg hadm, if_pos (show 0 < (refill gb now).rate ∧ 0 < (refill cb now).rate
      from ⟨hg, hc⟩)] at hres
    simp only [Except.ok.injEq, Prod.mk.injEq] at hres
    obtain ⟨hres1, hres2, hres3⟩ := hres
    subst hres2
    subst hres3
    rw [← hres1]
    refine ⟨?_, le_max_left 1 _⟩
    show max 1 (max 0 (pyRound (max (max 0 (1 - (refill gb now).tokens) / (refill gb now).rate)
        (max 0 (1 - (refill cb now).tokens) / (refill cb now).rate))))
      = max 1 (pyRound (shortWaitMax (refill gb now) (refill cb now)))
    rw [shortWaitMax_eq, ← max_assoc]
    norm_num

theorem allow_denied_retry_after_witness :
    guardRetryAfter (1 : ℤ) = max 1 (pyRound (shortWaitMax ⟨5, 0, 10, 10⟩ ⟨3/10, 0, 1, 1/2⟩)) ∧
    1 ≤ guardRetryAfter (1 : ℤ) :=
  allow_denied_retry_after ⟨5, 0, 10, 10⟩ ⟨3/10, 0, 1, 1/2⟩ 0 ⟨false, 1, 0, 1⟩
    ⟨5, 0, 10, 10⟩ ⟨3/10, 0, 1, 1/2⟩ (by norm_num) (by norm_num)
    (by norm_num [allow, refill, pyInt, pyRound]) rfl

/-- C3 counterexample: a denied admission — global bucket ⟨tokens 5, capacity
10, rate 10⟩, client bucket ⟨tokens 3/10, capacity 1, rate 1/2⟩ — where only
the client bucket is short, `(1 - 3/10) / (1/2) = 7/5`, the claim's ceiling
gives a reported value of 2, yet the code reports `max 1 (round 7/5) = 1`. -/
theorem retry_after_not_ceiling :
    allow ⟨5, 0, 10, 10⟩ ⟨3/10, 0, 1, 1/2⟩ 0 =
      .ok (⟨false, 1, 0, 1⟩, ⟨5, 0, 10, 10⟩, ⟨3/10, 0, 1, 1/2⟩) ∧
    guardRetryAfter 1 = 1 ∧
    max 1 (ceilRetrySpec ⟨5, 0, 10, 10⟩ ⟨3/10, 0, 1, 1/2⟩) = 2 ∧
    (1 : ℤ) ≠ 2 := by
  refine ⟨by norm_num [allow, refill, pyInt, pyRound], by norm_num [guardRetryAfter], ?_,
    by norm_num⟩
  have h : ⌈(7 : ℚ) / 5⌉ = 2 := by
    rw [Int.ceil_eq_iff]
    norm_num
  norm_num [ceilRetrySpec, h]

/-- C1: contrary to the claim, every `/alloc` request with a valid body
(non-empty `request_id`, positive `token_count`) that reaches the handler is
answered 500 internal and leaves the database untouched: `_allocator()`
passes the keyword `big_request_threshold` to `Allocator.__init__`, which
does not accept it, so the construction raises `TypeError` inside the `try`
block and `except Exception` maps it to `{"error": "internal"}, 500`. -/
theorem alloc_route_always_internal (strategy : String) (retryCfg : Int) (s : DBState)
    (r : String) (k : Int) (hr : 1 ≤ r.length) (hk : 0 < k) :
    (alloc_route strategy retryCfg s r k).1 = .internal ∧
    (alloc_route strategy retryCfg s r k).2 = s := by
  unfold alloc_route
  rw [if_neg (by omega), if_pos (by decide)]
  exact ⟨rfl, rfl⟩

theorem alloc_route_always_internal_witness :
    1 ≤ ("rid-1" : String).length ∧ (0 : Int) < 30 ∧
    (alloc_route "best" 2 ⟨[⟨0, 300, 0⟩], []⟩ "rid-1" 30).1 = .internal ∧
    (alloc_route "best" 2 ⟨[⟨0, 300, 0⟩], []⟩ "rid-1" 30).2 = ⟨[⟨0, 300, 0⟩], []⟩ :=
  ⟨by decide, by decide,
    (alloc_route_always_internal "best" 2 ⟨[⟨0, 300, 0⟩], []⟩ "rid-1" 30
      (by decide) (by decide)).1,
    (alloc_route_always_internal "best" 2 ⟨[⟨0, 300, 0⟩], []⟩ "rid-1" 30
      (by decide) (by decide)).2⟩

/-- C2: the big-request override is absent from `Allocator.alloc`: with
strategy `best`, threshold 200 and `token_count = 250 ≥ 200`, on nodes with
remaining 250 (id 1) and 300 (id 2), the code still orders ascending and
takes node 1, whereas the specification's selection (`selectCandidateSpec`,
modelled from the spec) takes node 2, the one with maximal remaining. -/
theorem big_request_override_missing :
    selectCandidate [⟨1, 300, 50⟩, ⟨2, 300, 0⟩] "best" 250 = some ⟨1, 300, 50⟩ ∧
    selectCandidateSpec [⟨1, 300, 50⟩, ⟨2, 300, 0⟩] "best" 200 250 = some ⟨2, 300, 0⟩ ∧
    (alloc "best" ⟨[⟨1, 300, 50⟩, ⟨2, 300, 0⟩], []⟩ "big" 250).1 = .ok ⟨1, 0⟩ ∧
    (⟨1, 300, 50⟩ : Node).id ≠ (⟨2, 300, 0⟩ : Node).id := by
  exact ⟨by decide, by decide, by decide, by decide⟩

/-- C4: when `alloc` performs a fresh placement (no row exists for the
request id) and succeeds, the chosen node fits the request, the returned
`node_id` is the chosen node's id, and among all nodes with
`remaining ≥ token_count` the chosen node has minimal remaining under
strategy `best` and maximal remaining under strategy `largest`, ties broken
by ascending node id. -/
theorem alloc_placement_policy (strategy : String) (s : DBState) (r : String) (k : Int)
    (res : AllocResult) (hno : findAllocation s r = none)
    (hok : (alloc strategy s r k).1 = .ok res) :
    ∃ n, selectCandidate s.nodes strategy k = some n ∧ res.node_id = n.id ∧
      n ∈ s.nodes ∧ k ≤ n.remaining ∧
      (strategy = "best" → ∀ m ∈ s.nodes, k ≤ m.remaining →
        n.remaining ≤ m.remaining ∧ (m.remaining = n.remaining → n.id ≤ m.id)) ∧
      (strategy = "largest" → ∀ m ∈ s.nodes, k ≤ m.remaining →
        m.remaining ≤ n.remaining ∧ (m.remaining = n.remaining → n.id ≤ m.id)) := by
  have halloc : alloc strategy s r k = allocPlace strategy s r k := by
    unfold alloc
    rw [hno]
  rw [halloc] at hok
  have hconf : insertConflict s r = false :=
    insertConflict_false_iff.mpr (findAllocation_none.mp hno)
  obtain ⟨node, node2, hsel, hfn, hres, _⟩ := allocPlace_fresh_ok hconf hok
  obtain ⟨hmem, hfit, hmin⟩ := selectCandidate_some hsel
  have hid : node2.id = node.id := (findNode_prop hfn).2
  refine ⟨node, hsel, by rw [hres]; exact hid, hmem, hfit, ?_, ?_⟩
  · intro hb m hm hkm
    have h := hmin m hm hkm
    rw [hb] at h
    unfold nodeOrder at h
    rw [if_pos rfl] at h
    omega
  · intro hb m hm hkm
    have h := hmin m hm hkm
    rw [hb] at h
    unfold nodeOrder at h
    rw [if_neg (by decide)] at h
    omega

theorem alloc_placement_policy_witness :
    findAllocation ⟨[⟨0, 300, 250⟩, ⟨1, 300, 100⟩, ⟨2, 300, 0⟩], []⟩ "s1" = none ∧
    (alloc "best" ⟨[⟨0, 300, 250⟩, ⟨1, 300, 100⟩, ⟨2, 300, 0⟩], []⟩ "s1" 150).1 =
      .ok ⟨1, 50⟩ ∧
    ∃ n, selectCandidate [⟨0, 300, 250⟩, ⟨1, 300, 100⟩, ⟨2, 300, 0⟩] "best" 150 = some n ∧
      (⟨1, 50⟩ : AllocResult).node_id = n.id ∧
      n ∈ [⟨0, 300, 250⟩, ⟨1, 300, 100⟩, ⟨2, 300, 0⟩] ∧ (150 : Int) ≤ n.remaining ∧
      ("best" = "best" → ∀ m ∈ [(⟨0, 300, 250⟩ : Node), ⟨1, 300, 100⟩, ⟨2, 300, 0⟩],
        (150 : Int) ≤ m.remaining →
        n.remaining ≤ m.remaining ∧ (m.remaining = n.remaining → n.id ≤ m.id)) ∧
      ("best" = "largest" → ∀ m ∈ [(⟨0, 300, 250⟩ : Node), ⟨1, 300, 100⟩, ⟨2, 300, 0⟩],
        (150 : Int) ≤ m.remaining →
        m.remaining ≤ n.remaining ∧ (m.remaining = n.remaining → n.id ≤ m.id)) :=
  ⟨by decide, by decide,
    alloc_placement_policy "best" ⟨[⟨0, 300, 250⟩, ⟨1, 300, 100⟩, ⟨2, 300, 0⟩], []⟩ "s1" 150
      ⟨1, 50⟩ (by decide) (by decide)⟩

/-- C9: with no allocated row for the request id, `alloc` fails `Overloaded`
exactly when no node's remaining covers the request or the conditional
increment changes zero rows, and such a failure leaves the state unchanged
(the transaction rolls back, so no node and no allocation row changes). -/
theorem alloc_overload_exactness (strategy : String) (s : DBState) (r : String) (k : Int)
    (hno : ∀ a ∈ s.allocations, a.request_id = r → a.status ≠ .allocated) :
    ((alloc strategy s r k).1 = .error .overloaded ↔
      (¬ ∃ n ∈ s.nodes, k ≤ n.remaining) ∨
      ∃ node, selectCandidate s.nodes strategy k = some node ∧
        condIncrementCount s.nodes node.id k = 0) ∧
    ((alloc strategy s r k).1 = .error .overloaded → (alloc strategy s r k).2 = s) := by
  have halloc : alloc strategy s r k = allocPlace strategy s r k := by
    cases hfa : findAllocation s r with
    | none => simp [alloc, hfa]
    | some e =>
      obtain ⟨hmem, hid⟩ := findAllocation_prop hfa
      simp [alloc, hfa, hno e hmem hid]
  rw [halloc]
  cases hsel : selectCandidate s.nodes strategy k with
  | none =>
    have hnofit := selectCandidate_none_iff.mp hsel
    refine ⟨⟨fun _ => Or.inl ?_, fun _ => by simp [allocPlace, hsel]⟩,
      fun _ => by simp [allocPlace, hsel]⟩
    push_neg
    exact fun n hn => not_le.mp (hnofit n hn)
  | some node =>
    obtain ⟨hmem, hfit, _⟩ := selectCandidate_some hsel
    by_cases hcnt : condIncrementCount s.nodes node.id k = 0
    · refine ⟨⟨fun _ => Or.inr ⟨node, rfl, hcnt⟩, fun _ => by simp [allocPlace, hsel, hcnt]⟩,
        fun _ => by simp [allocPlace, hsel, hcnt]⟩
    · have hnotov : (allocPlace strategy s r k).1 ≠ .error .overloaded := by
        simp only [allocPlace, hsel, if_neg hcnt]
        by_cases hconf : insertConflict s r = true
        · simp only [hconf, if_true]
          cases hfa2 : findAllocation s r with
          | none => simp
          | some e =>
            simp only [idempotentReturn]
            cases hfn2 : findNode s.nodes e.node_id <;> simp
        · rw [Bool.not_eq_true] at hconf
          simp only [hconf, Bool.false_eq_true, if_false]
          cases hfn : findNode (condIncrementNodes s.nodes node.id k) node.id <;> simp
      refine ⟨⟨fun h => absurd h hnotov, fun h => ?_⟩, fun h => absurd h hnotov⟩
      exfalso
      rcases h with h | ⟨nd, hnd, hcnt2⟩
      · exact h ⟨node, hmem, hfit⟩
      · rw [Option.some.injEq] at hnd
        rw [← hnd] at hcnt2
        exact hcnt hcnt2

theorem alloc_overload_exactness_witness :
    ((alloc "best" ⟨[⟨1, 10, 0⟩], []⟩ "a" 20).1 = .error .overloaded ↔
      (¬ ∃ n ∈ [(⟨1, 10, 0⟩ : Node)], (20 : Int) ≤ n.remaining) ∨
      ∃ node, selectCandidate [⟨1, 10, 0⟩] "best" 20 = some node ∧
        condIncrementCount [⟨1, 10, 0⟩] node.id 20 = 0) ∧
    ((alloc "best" ⟨[⟨1, 10, 0⟩], []⟩ "a" 20).1 = .error .overloaded →
      (alloc "best" ⟨[⟨1, 10, 0⟩], []⟩ "a" 20).2 = ⟨[⟨1, 10, 0⟩], []⟩) :=
  alloc_overload_exactness "best" ⟨[⟨1, 10, 0⟩], []⟩ "a" 20 (by simp)

theorem allocPlace_second (strategy : String) (s : DBState) (r : String) (k : Int)
    (halloc : alloc strategy s r k = allocPlace strategy s r k) :
    alloc strategy (allocPlace strategy s r k).2 r k = allocPlace strategy s r k := by
  rcases allocPlace_state_cases strategy s r k with h | ⟨node, node2, hsel, hcnt, hconf, hfn, heq⟩
  · rw [h]
    exact halloc
  · rw [heq]
    have hnomatch : ∀ a ∈ s.allocations, a.request_id ≠ r := insertConflict_false_iff.mp hconf
    have hfind : findAllocation ⟨condIncrementNodes s.nodes node.id k,
        s.allocations ++ [⟨r, node.id, k, .allocated⟩]⟩ r = some ⟨r, node.id, k, .allocated⟩ := by
      unfold findAllocation
      exact find?_concat_self hnomatch rfl
    simp only [alloc, hfind, idempotentReturn]
    simp [hfn]

/-- C5: running the same `alloc(request_id, token_count)` twice in sequence
gives the second call the same outcome as the first — identical
`{node_id, remaining_quota}` (or the identical error) — and the second call
leaves the state exactly as the first call left it, mutating nothing. -/
theorem alloc_idempotent (strategy : String) (s : DBState) (r : String) (k : Int) :
    alloc strategy (alloc strategy s r k).2 r k = alloc strategy s r k := by
  cases hfa : findAllocation s r with
  | some e =>
    by_cases hst : e.status = .allocated
    · have hstate : (alloc strategy s r k).2 = s := by
        simp only [alloc, hfa, if_pos hst, idempotentReturn]
        cases hfn : findNode s.nodes e.node_id <;> rfl
      rw [hstate]
    · have halloc : alloc strategy s r k = allocPlace strategy s r k := by
        simp [alloc, hfa, hst]
      rw [halloc]
      exact allocPlace_second strategy s r k halloc
  | none =>
    have halloc : alloc strategy s r k = allocPlace strategy s r k := by
      simp [alloc, hfa]
    rw [halloc]
    exact allocPlace_second strategy s r k halloc

/-- C7: `free(request_id)` fails `NotFound` exactly when no allocation row
with status `allocated` exists for that id; a failure leaves the state
untouched; a success flips that row's status to `freed` (other rows kept),
returns its `node_id`, and decreases that node's `used_quota` by exactly the
row's `token_count` while every other node is kept unchanged. -/
theorem free_not_found_iff_and_effects (s : DBState) (r : String)
    (hnodup : (s.allocations.map Allocation.request_id).Nodup) :
    ((free s r).1 = .error .notFound ↔
      ¬ ∃ a ∈ s.allocations, a.request_id = r ∧ a.status = .allocated) ∧
    (∀ e, (free s r).1 = .error e → (free s r).2 = s) ∧
    (∀ res, (free s r).1 = .ok res →
      ∃ a ∈ s.allocations, a.request_id = r ∧ a.status = .allocated ∧
        res.node_id = a.node_id ∧
        (⟨r, a.node_id, a.token_count, .freed⟩ : Allocation) ∈ (free s r).2.allocations ∧
        (∀ b ∈ s.allocations, b.request_id ≠ r → b ∈ (free s r).2.allocations) ∧
        (∀ n ∈ s.nodes,
          (n.id = a.node_id →
            (⟨n.id, n.capacity_m, n.used_quota - a.token_count⟩ : Node) ∈ (free s r).2.nodes) ∧
          (n.id ≠ a.node_id → n ∈ (free s r).2.nodes))) := by
  cases hfa : findAllocation s r with
  | none =>
    have hnone := findAllocation_none.mp hfa
    have hfr : free s r = (.error .notFound, s) := by simp [free, hfa]
    rw [hfr]
    refine ⟨⟨fun _ => ?_, fun _ => rfl⟩, fun e _ => rfl, fun res h => by simp at h⟩
    rintro ⟨b, hb, hbid, _⟩
    exact hnone b hb hbid
  | some a =>
    obtain ⟨hamem, haid⟩ := findAllocation_prop hfa
    by_cases hst : a.status = .allocated
    · cases hfn : findNode s.nodes a.node_id with
      | none =>
        have hfr : free s r = (.error .internal, s) := by simp [free, hfa, hst, hfn]
        rw [hfr]
        refine ⟨⟨fun h => by simp at h, fun h => absurd ⟨a, hamem, haid, hst⟩ h⟩,
          fun e _ => rfl, fun res h => by simp at h⟩
      | some node =>
        have hnid : node.id = a.node_id := (findNode_prop hfn).2
        have hfr : free s r = (.ok ⟨node.id⟩,
            ⟨s.nodes.map (fun n =>
                if n.id = node.id then { n with used_quota := n.used_quota - a.token_count }
                else n),
              s.allocations.map (fun x =>
                if x.request_id = r then { x with status := AllocStatus.freed } else x)⟩) := by
          simp [free, hfa, hst, hfn]
        rw [hfr]
        refine ⟨⟨fun h => by simp at h, fun h => absurd ⟨a, hamem, haid, hst⟩ h⟩,
          fun e h => by simp at h, fun res hres => ?_⟩
        simp only [Except.ok.injEq] at hres
        refine ⟨a, hamem, haid, hst, by rw [← hres]; exact hnid, ?_, ?_, ?_⟩
        · refine List.mem_map.mpr ⟨a, hamem, ?_⟩
          simp [haid]
        · intro b hb hbne
          refine List.mem_map.mpr ⟨b, hb, ?_⟩
          simp [hbne]
        · intro n hn
          constructor
          · intro hnid2
            refine List.mem_map.mpr ⟨n, hn, ?_⟩
            simp [hnid, hnid2]
          · intro hnid2
            refine List.mem_map.mpr ⟨n, hn, ?_⟩
            have hne : ¬ n.id = node.id := by
              rw [hnid]
              exact hnid2
            simp [hne]
    · have hfr : free s r = (.error .notFound, s) := by simp [free, hfa, hst]
      rw [hfr]
      refine ⟨⟨fun _ => ?_, fun _ => rfl⟩, fun e _ => rfl, fun res h => by simp at h⟩
      rintro ⟨b, hb, hbid, hbst⟩
      have hba : b = a :=
        List.inj_on_of_nodup_map hnodup hb hamem (by rw [hbid, haid])
      rw [hba] at hbst
      exact hst hbst

theorem free_not_found_iff_and_effects_witness :
    ((free ⟨[⟨1, 100, 40⟩], [⟨"t", 1, 40, .allocated⟩]⟩ "t").1 = .error .notFound ↔
      ¬ ∃ a ∈ [(⟨"t", 1, 40, .allocated⟩ : Allocation)],
        a.request_id = "t" ∧ a.status = .allocated) ∧
    (∀ e, (free ⟨[⟨1, 100, 40⟩], [⟨"t", 1, 40, .allocated⟩]⟩ "t").1 = .error e →
      (free ⟨[⟨1, 100, 40⟩], [⟨"t", 1, 40, .allocated⟩]⟩ "t").2 =
        ⟨[⟨1, 100, 40⟩], [⟨"t", 1, 40, .allocated⟩]⟩) ∧
    (∀ res, (free ⟨[⟨1, 100, 40⟩], [⟨"t", 1, 40, .allocated⟩]⟩ "t").1 = .ok res →
      ∃ a ∈ [(⟨"t", 1, 40, .allocated⟩ : Allocation)],
        a.request_id = "t" ∧ a.status = .allocated ∧
        res.node_id = a.node_id ∧
        (⟨"t", a.node_id, a.token_count, .freed⟩ : Allocation) ∈
          (free ⟨[⟨1, 100, 40⟩], [⟨"t", 1, 40, .allocated⟩]⟩ "t").2.allocations ∧
        (∀ b ∈ [(⟨"t", 1, 40, .allocated⟩ : Allocation)], b.request_id ≠ "t" →
          b ∈ (free ⟨[⟨1, 100, 40⟩], [⟨"t", 1, 40, .allocated⟩]⟩ "t").2.allocations) ∧
        (∀ n ∈ [(⟨1, 100, 40⟩ : Node)],
          (n.id = a.node_id →
            (⟨n.id, n.capacity_m, n.used_quota - a.token_count⟩ : Node) ∈
              (free ⟨[⟨1, 100, 40⟩], [⟨"t", 1, 40, .allocated⟩]⟩ "t").2.nodes) ∧
          (n.id ≠ a.node_id →
            n ∈ (free ⟨[⟨1, 100, 40⟩], [⟨"t", 1, 40, .allocated⟩]⟩ "t").2.nodes))) :=
  free_not_found_iff_and_effects ⟨[⟨1, 100, 40⟩], [⟨"t", 1, 40, .allocated⟩]⟩ "t" (by simp)

/-- C6 (amended): when no allocation row exists for the request id
beforehand and node ids are unique, a successful `alloc(r, k)` followed by
`free(r)` succeeds, returns the same node id, and restores every node —
the chosen node's `used_quota` returns to its prior value and all other
nodes are untouched. -/
theorem alloc_free_round_trip_fresh (strategy : String) (s : DBState) (r : String) (k : Int)
    (res : AllocResult) (hnodup : (s.nodes.map Node.id).Nodup)
    (hno : findAllocation s r = none)
    (hok : (alloc strategy s r k).1 = .ok res) :
    (free (alloc strategy s r k).2 r).1 = .ok ⟨res.node_id⟩ ∧
    (free (alloc strategy s r k).2 r).2.nodes = s.nodes := by
  have halloc : alloc strategy s r k = allocPlace strategy s r k := by simp [alloc, hno]
  rw [halloc] at hok ⊢
  have hconf : insertConflict s r = false :=
    insertConflict_false_iff.mpr (findAllocation_none.mp hno)
  obtain ⟨node, node2, hsel, hfn, hres, hstate⟩ := allocPlace_fresh_ok hconf hok
  rw [hstate]
  obtain ⟨hmem, hfit, _⟩ := selectCandidate_some hsel
  have hid2 : node2.id = node.id := (findNode_prop hfn).2
  have hnomatch := insertConflict_false_iff.mp hconf
  have hfind : findAllocation ⟨condIncrementNodes s.nodes node.id k,
      s.allocations ++ [⟨r, node.id, k, .allocated⟩]⟩ r = some ⟨r, node.id, k, .allocated⟩ := by
    unfold findAllocation
    exact find?_concat_self hnomatch rfl
  constructor
  · rw [hres]
    simp [free, hfind, hfn]
  · have hnodes : (free ⟨condIncrementNodes s.nodes node.id k,
        s.allocations ++ [(⟨r, node.id, k, .allocated⟩ : Allocation)]⟩ r).2.nodes
        = (condIncrementNodes s.nodes node.id k).map (fun n : Node =>
            if n.id = node2.id then { n with used_quota := n.used_quota - k } else n) := by
      simp [free, hfind, hfn]
    rw [hnodes]
    unfold condIncrementNodes
    rw [List.map_map]
    have hcongr : ∀ n ∈ s.nodes,
        ((fun n : Node =>
            if n.id = node2.id then { n with used_quota := n.used_quota - k } else n) ∘
          (fun n : Node => if n.id = node.id ∧ k ≤ n.remaining then
            { n with used_quota := n.used_quota + k } else n)) n = id n := by
      intro n hn
      simp only [Function.comp_apply, id_eq]
      by_cases hnid : n.id = node.id
      · have hne : n = node := List.inj_on_of_nodup_map hnodup hn hmem hnid
        have hcond : n.id = node.id ∧ k ≤ n.remaining := by
          refine ⟨hnid, ?_⟩
          rw [hne]
          exact hfit
        rw [if_pos hcond]
        have hcond2 : ({ n with used_quota := n.used_quota + k } : Node).id = node2.id := by
          rw [hid2]
          exact hnid
        rw [if_pos hcond2]
        simp
      · have hcond : ¬ (n.id = node.id ∧ k ≤ n.remaining) := fun hc => hnid hc.1
        rw [if_neg hcond]
        simp [hid2, hnid]
    rw [List.map_congr_left hcongr, List.map_id]

theorem alloc_free_round_trip_fresh_witness :
    (free (alloc "best" ⟨[⟨1, 300, 0⟩], []⟩ "q" 80).2 "q").1 = .ok ⟨(1 : Int)⟩ ∧
    (free (alloc "best" ⟨[⟨1, 300, 0⟩], []⟩ "q" 80).2 "q").2.nodes = [⟨1, 300, 0⟩] :=
  alloc_free_round_trip_fresh "best" ⟨[⟨1, 300, 0⟩], []⟩ "q" 80 ⟨1, 220⟩
    (by decide) (by decide) (by decide)

/-- C6 counterexample: when an allocated row for `r` already exists —
one node (id 1, capacity 100, used_quota 50) and the row
`("r", node 1, token_count 50, allocated)` — `alloc("r", 10)` succeeds as an
idempotent no-op, and the following `free("r")` drops the node's
`used_quota` to 0, not back to its value 50 before the alloc. -/
theorem round_trip_fails_on_pre_allocated :
    (alloc "best" ⟨[⟨1, 100, 50⟩], [⟨"r", 1, 50, .allocated⟩]⟩ "r" 10).1 = .ok ⟨1, 50⟩ ∧
    (alloc "best" ⟨[⟨1, 100, 50⟩], [⟨"r", 1, 50, .allocated⟩]⟩ "r" 10).2 =
      ⟨[⟨1, 100, 50⟩], [⟨"r", 1, 50, .allocated⟩]⟩ ∧
    free ⟨[⟨1, 100, 50⟩], [⟨"r", 1, 50, .allocated⟩]⟩ "r" =
      (.ok ⟨1⟩, ⟨[⟨1, 100, 0⟩], [⟨"r", 1, 50, .freed⟩]⟩) ∧
    (0 : Int) ≠ 50 := by
  exact ⟨by decide, by decide, by decide, by decide⟩

/-- C10 (amended): for a request id whose allocation row has status `freed`,
`alloc` never changes the state — no second row is inserted, the row never
returns to `allocated`, and every node's `used_quota` is untouched (the
fresh insert hits the primary-key conflict and the reserve is rolled back);
and whenever some node's remaining covers `k`, the call returns the freed
row's `node_id` with that node's current remaining.  When no node fits, the
call instead fails `Overloaded` and returns nothing. -/
theorem alloc_on_freed_row (strategy : String) (s : DBState) (r : String) (k : Int)
    (a : Allocation) (hfa : findAllocation s r = some a) (hfreed : a.status = .freed) :
    (alloc strategy s r k).2 = s ∧
    (∀ nd, findNode s.nodes a.node_id = some nd →
      (∃ n ∈ s.nodes, k ≤ n.remaining) →
      (alloc strategy s r k).1 = .ok ⟨a.node_id, nd.capacity_m - nd.used_quota⟩) := by
  have hst : ¬ a.status = .allocated := by
    rw [hfreed]
    simp
  have halloc : alloc strategy s r k = allocPlace strategy s r k := by
    simp [alloc, hfa, hst]
  rw [halloc]
  have hconf : insertConflict s r = true := insertConflict_of_found hfa
  constructor
  · rcases allocPlace_state_cases strategy s r k with h | ⟨_, _, _, _, hcf, _, _⟩
    · exact h
    · rw [hconf] at hcf
      simp at hcf
  · intro nd hnd hex
    obtain ⟨n0, hn0, hk0⟩ := hex
    cases hsel : selectCandidate s.nodes strategy k with
    | none => exact absurd hk0 (selectCandidate_none_iff.mp hsel n0 hn0)
    | some node =>
      obtain ⟨hmem, hfit, _⟩ := selectCandidate_some hsel
      have hcnt := condIncrementCount_pos hmem hfit
      have hid : nd.id = a.node_id := (findNode_prop hnd).2
      simp only [allocPlace, hsel, if_neg hcnt, hconf, if_true, hfa, idempotentReturn, hnd]
      rw [hid]

theorem alloc_on_freed_row_witness :
    (alloc "best" ⟨[⟨1, 10, 0⟩], [⟨"r", 1, 5, .freed⟩]⟩ "r" 3).2 =
      ⟨[⟨1, 10, 0⟩], [⟨"r", 1, 5, .freed⟩]⟩ ∧
    (∀ nd, findNode [(⟨1, 10, 0⟩ : Node)] (⟨"r", 1, 5, .freed⟩ : Allocation).node_id = some nd →
      (∃ n ∈ [(⟨1, 10, 0⟩ : Node)], (3 : Int) ≤ n.remaining) →
      (alloc "best" ⟨[⟨1, 10, 0⟩], [⟨"r", 1, 5, .freed⟩]⟩ "r" 3).1 =
        .ok ⟨(⟨"r", 1, 5, .freed⟩ : Allocation).node_id, nd.capacity_m - nd.used_quota⟩) :=
  alloc_on_freed_row "best" ⟨[⟨1, 10, 0⟩], [⟨"r", 1, 5, .freed⟩]⟩ "r" 3
    ⟨"r", 1, 5, .freed⟩ (by decide) rfl

/-- C10 counterexample: with one node (id 1, capacity 10, used 0) and a
freed row `("r", node 1, 5, freed)`, the call `alloc("r", 100)` does not
return the freed row's node and remaining as the claim states for every `k`:
no node's remaining covers 100, so it raises `Overloaded`. -/
theorem alloc_on_freed_row_no_fit_overloads :
    (alloc "best" ⟨[⟨1, 10, 0⟩], [⟨"r", 1, 5, .freed⟩]⟩ "r" 100).1 =
      .error .overloaded := by
  decide

end TokenRouting
